import Mathlib

/-!
Verification of the join-planning memo of go-mysql-server
(sql/memo/memo.go and sql/memo/memo.og.go), against its natural-language
specification.  The Go code is shallowly embedded: linked lists of plan
alternatives become Lean lists (head = First, tail order = the Next
links), pointer-addressed expression groups become finite maps from group
ids, float64 costs become rationals, and Go functions become Lean
functions over those states.  Pieces of the repository that are referred
to by memo.go but whose definitions are not part of the provided sources
(ExprGroup.Prepend, ExprGroup.updateBest, joinHints.satisfiedBy,
isInjectiveLookup, the decorrelation and index-selection transform rules)
are modelled from the specification text and marked as such in their doc
comments.
-/

/-! ## Candidate model for Memo.updateBest (memo.go lines 383-399)

During optimizeMemoGroup each alternative of a group reaches
Memo.updateBest in linked-list order, carrying its accumulated cost.
Whether the alternative satisfies the active hints is decided by
joinHints.satisfiedBy, which is not part of the provided sources; we
abstract an alternative into the outcome of that test together with its
cost and an identifier. -/

structure Cand where
  sat : Bool
  cost : ℚ
  id : Nat
deriving DecidableEq, Repr

/-- The Go nil test on a Best pointer needs no equality on the wrapped
alternatives. -/
instance optionEqNoneDec {α : Type} (o : Option α) : Decidable (o = none) :=
  Option.decidableEqNone

/-- The per-group selection state mutated by updateBest: the Best
pointer, its cost, and the HintOk flag.  The type of alternatives is a
parameter so that the same updateBest model serves both the abstract
candidate streams and the optimizeMemoGroup model below. -/
structure GSel (α : Type) where
  best : Option α
  cost : ℚ
  hintOk : Bool
deriving DecidableEq, Repr

/-- Modelled from the spec: ExprGroup.updateBest is not among the
provided sources.  Per the spec, within each category minimum cost wins,
so the incoming alternative replaces the current best exactly when no
best is recorded yet or its cost does not exceed the recorded cost. -/
def exprGroupUpdateBest {α : Type} (g : GSel α) (n : α) (cost : ℚ) : GSel α :=
  if g.best = none ∨ cost ≤ g.cost then
    { g with best := some n, cost := cost }
  else
    g

/-- Memo.updateBest (memo.go lines 383-399).  sat is the outcome of
joinHints.satisfiedBy (not among the provided sources); hintsNonNil
models the (m.hints != nil) test — NewMemo always installs a non-nil
hint record, so planning always takes the first branch. -/
def memoUpdateBest {α : Type} (sat : α → Bool) (hintsNonNil : Bool)
    (g : GSel α) (n : α) (cost : ℚ) : GSel α :=
  if hintsNonNil then
    if sat n then
      if g.hintOk = false then
        { best := some n, cost := cost, hintOk := true }
      else
        exprGroupUpdateBest g n cost
    else if g.best = none ∨ g.hintOk = false then
      exprGroupUpdateBest g n cost
    else
      g
  else
    exprGroupUpdateBest g n cost

/-- The selection state a group starts from: zero-valued Best, Cost and
HintOk fields. -/
def initGSel {α : Type} : GSel α :=
  { best := none, cost := 0, hintOk := false }

/-- Running Memo.updateBest over a group's alternatives in list order,
each alternative submitted with its own cost, as in the loop of
optimizeMemoGroup (memo.go lines 336-368). -/
def runUpdateBest (hintsNonNil : Bool) (g : GSel Cand) (alts : List Cand) :
    GSel Cand :=
  alts.foldl (fun s n => memoUpdateBest Cand.sat hintsNonNil s n n.cost) g

/-- Invariant of the selection state after the alternatives in seen have
been submitted, starting from initGSel. -/
def SelInv (seen : List Cand) (s : GSel Cand) : Prop :=
  (∀ b, s.best = some b → s.cost = b.cost ∧ b ∈ seen) ∧
  (s.hintOk = true ↔ ∃ c ∈ seen, c.sat = true) ∧
  (s.hintOk = true →
    ∃ b, s.best = some b ∧ b.sat = true ∧
      ∀ c ∈ seen, c.sat = true → b.cost ≤ c.cost) ∧
  (s.hintOk = false → seen ≠ [] →
    ∃ b, s.best = some b ∧ ∀ c ∈ seen, b.cost ≤ c.cost)

lemma selInv_init : SelInv [] initGSel := by
  refine ⟨?_, ?_, ?_, ?_⟩
  · intro b hb; simp [initGSel] at hb
  · simp [initGSel]
  · intro h; simp [initGSel] at h
  · intro _ h; simp at h

lemma mem_append_one {c n : Cand} {seen : List Cand} :
    c ∈ seen ++ [n] ↔ c ∈ seen ∨ c = n := by
  simp

lemma self_mem_append_one (n : Cand) (seen : List Cand) :
    n ∈ seen ++ [n] :=
  mem_append_one.mpr (Or.inr rfl)

lemma selInv_step (seen : List Cand) (s : GSel Cand) (n : Cand)
    (h : SelInv seen s) :
    SelInv (seen ++ [n]) (memoUpdateBest Cand.sat true s n n.cost) := by
  obtain ⟨hbc, hiff, hsat, hnosat⟩ := h
  by_cases hns : n.sat = true
  · -- the incoming alternative satisfies the hints
    by_cases hok : s.hintOk = true
    · -- a satisfying best is already recorded; ExprGroup.updateBest runs
      obtain ⟨b0, hb0, hb0s, hb0min⟩ := hsat hok
      have hcost : s.cost = b0.cost := (hbc b0 hb0).1
      have hmem : b0 ∈ seen := (hbc b0 hb0).2
      have hform : memoUpdateBest Cand.sat true s n n.cost
          = exprGroupUpdateBest s n n.cost := by
        simp [memoUpdateBest, hns, hok]
      rw [hform]
      by_cases hle : n.cost ≤ s.cost
      · have hstep : exprGroupUpdateBest s n n.cost
            = { s with best := some n, cost := n.cost } := by
          simp [exprGroupUpdateBest, hle]
        rw [hstep]
        refine ⟨?_, ?_, ?_, ?_⟩
        · intro b hb
          simp only [Option.some.injEq] at hb
          subst hb
          exact ⟨rfl, self_mem_append_one n seen⟩
        · constructor
          · intro _
            exact ⟨n, self_mem_append_one n seen, hns⟩
          · intro _
            exact hok
        · intro _
          refine ⟨n, rfl, hns, ?_⟩
          intro c hc hcs
          rcases mem_append_one.mp hc with hc | hc
          · exact le_trans (hcost ▸ hle) (hb0min c hc hcs)
          · subst hc
            exact le_refl _
        · intro hfalse
          have hx : s.hintOk = false := hfalse
          exact absurd hok (by simp [hx])
      · have hstep : exprGroupUpdateBest s n n.cost = s := by
          simp [exprGroupUpdateBest, hle, hb0]
        rw [hstep]
        refine ⟨?_, ?_, ?_, ?_⟩
        · intro b hb
          exact ⟨(hbc b hb).1, List.mem_append_left _ (hbc b hb).2⟩
        · constructor
          · intro _
            exact ⟨b0, List.mem_append_left _ hmem, hb0s⟩
          · intro _
            exact hok
        · intro _
          refine ⟨b0, hb0, hb0s, ?_⟩
          intro c hc hcs
          rcases mem_append_one.mp hc with hc | hc
          · exact hb0min c hc hcs
          · subst hc
            exact le_of_lt (hcost ▸ lt_of_not_le hle)
        · intro hfalse
          exact absurd hok (by simp [hfalse])
    · -- first satisfying alternative: forced as best regardless of cost
      have hok' : s.hintOk = false := by
        cases hx : s.hintOk
        · rfl
        · exact absurd hx hok
      have hnosat_seen : ∀ c ∈ seen, c.sat = false := by
        intro c hc
        cases hcs : c.sat
        · rfl
        · exact absurd (hiff.mpr ⟨c, hc, hcs⟩) hok
      have hform : memoUpdateBest Cand.sat true s n n.cost
          = { best := some n, cost := n.cost, hintOk := true } := by
        simp [memoUpdateBest, hns, hok']
      rw [hform]
      refine ⟨?_, ?_, ?_, ?_⟩
      · intro b hb
        simp only [Option.some.injEq] at hb
        subst hb
        exact ⟨rfl, self_mem_append_one n seen⟩
      · constructor
        · intro _
          exact ⟨n, self_mem_append_one n seen, hns⟩
        · intro _
          rfl
      · intro _
        refine ⟨n, rfl, hns, ?_⟩
        intro c hc hcs
        rcases mem_append_one.mp hc with hc | hc
        · exact absurd hcs (by simp [hnosat_seen c hc])
        · subst hc
          exact le_refl _
      · intro hfalse
        exact absurd hfalse (by simp)
  · -- the incoming alternative does not satisfy the hints
    have hns' : n.sat = false := by
      cases hx : n.sat
      · rfl
      · exact absurd hx hns
    have hsat_ext : ∀ c ∈ seen ++ [n], c.sat = true → c ∈ seen := by
      intro c hc hcs
      rcases mem_append_one.mp hc with hc | hc
      · exact hc
      · subst hc
        exact absurd hcs (by simp [hns'])
    by_cases hok : s.hintOk = true
    · -- hint-satisfying best already recorded: the candidate is skipped
      obtain ⟨b0, hb0, hb0s, hb0min⟩ := hsat hok
      have hform : memoUpdateBest Cand.sat true s n n.cost = s := by
        simp [memoUpdateBest, hns', hok, hb0]
      rw [hform]
      refine ⟨?_, ?_, ?_, ?_⟩
      · intro b hb
        exact ⟨(hbc b hb).1, List.mem_append_left _ (hbc b hb).2⟩
      · constructor
        · intro h'
          obtain ⟨c, hc, hcs⟩ := hiff.mp h'
          exact ⟨c, List.mem_append_left _ hc, hcs⟩
        · intro _
          exact hok
      · intro _
        refine ⟨b0, hb0, hb0s, ?_⟩
        intro c hc hcs
        exact hb0min c (hsat_ext c hc hcs) hcs
      · intro hfalse
        exact absurd hok (by simp [hfalse])
    · -- no satisfying alternative so far: plain minimum-cost update
      have hok' : s.hintOk = false := by
        cases hx : s.hintOk
        · rfl
        · exact absurd hx hok
      have hiff_ext : false = true ↔ ∃ c ∈ seen ++ [n], c.sat = true := by
        constructor
        · intro hfalse
          exact absurd hfalse (by simp)
        · intro ⟨c, hc, hcs⟩
          exact absurd (hiff.mpr ⟨c, hsat_ext c hc hcs, hcs⟩) (by simp [hok'])
      have hform : memoUpdateBest Cand.sat true s n n.cost
          = exprGroupUpdateBest s n n.cost := by
        simp [memoUpdateBest, hns', hok']
      rw [hform]
      by_cases hrepl : s.best = none ∨ n.cost ≤ s.cost
      · have hstep : exprGroupUpdateBest s n n.cost
            = { s with best := some n, cost := n.cost } := by
          simp only [exprGroupUpdateBest, hrepl, if_pos]
        rw [hstep]
        refine ⟨?_, ?_, ?_, ?_⟩
        · intro b hb
          simp only [Option.some.injEq] at hb
          subst hb
          exact ⟨rfl, self_mem_append_one n seen⟩
        · exact hok' ▸ hiff_ext
        · intro h'
          exact absurd h' (by simp [hok'])
        · intro _ _
          refine ⟨n, rfl, ?_⟩
          intro c hc
          rcases mem_append_one.mp hc with hc | hc
          · have hne : seen ≠ [] := by
              intro hnil
              subst hnil
              exact absurd hc (List.not_mem_nil c)
            obtain ⟨b1, hb1, hb1min⟩ := hnosat hok' hne
            rcases hrepl with hb | hle
            · exact absurd hb (by simp [hb1])
            · exact le_trans ((hbc b1 hb1).1 ▸ hle) (hb1min c hc)
          · subst hc
            exact le_refl _
      · have hstep : exprGroupUpdateBest s n n.cost = s := by
          simp only [exprGroupUpdateBest, hrepl, if_neg, not_false_iff]
        rw [hstep]
        have hbne : s.best ≠ none := by
          intro hb
          exact hrepl (Or.inl hb)
        obtain ⟨b1, hb1⟩ := Option.ne_none_iff_exists.mp hbne
        have hne : seen ≠ [] := by
          intro hnil
          have hm := (hbc b1 hb1.symm).2
          rw [hnil] at hm
          exact absurd hm (List.not_mem_nil b1)
        refine ⟨?_, ?_, ?_, ?_⟩
        · intro b hb
          exact ⟨(hbc b hb).1, List.mem_append_left _ (hbc b hb).2⟩
        · exact hok' ▸ hiff_ext
        · intro h'
          exact absurd h' (by simp [hok'])
        · intro _ _
          obtain ⟨b2, hb2, hb2min⟩ := hnosat hok' hne
          refine ⟨b2, hb2, ?_⟩
          intro c hc
          rcases mem_append_one.mp hc with hc | hc
          · exact hb2min c hc
          · subst hc
            have hlt := lt_of_not_le (fun hle => hrepl (Or.inr hle))
            exact le_of_lt ((hbc b2 hb2).1 ▸ hlt)

lemma selInv_run (alts : List Cand) :
    ∀ (seen : List Cand) (s : GSel Cand), SelInv seen s →
      SelInv (seen ++ alts) (runUpdateBest true s alts) := by
  induction alts with
  | nil => intro seen s h; simpa [runUpdateBest] using h
  | cons n rest ih =>
    intro seen s h
    have h1 := selInv_step seen s n h
    have h2 := ih (seen ++ [n]) (memoUpdateBest Cand.sat true s n n.cost) h1
    simpa [runUpdateBest, List.append_assoc] using h2

/-- C1: hint fidelity of updateBest.  For a group optimized under a
non-empty hint set, if at least one alternative satisfies the hints then
the chosen Best satisfies the hints; a satisfying candidate beats any
non-satisfying one regardless of cost, and among satisfying candidates
the minimum cost wins. -/
theorem updateBest_hint_fidelity (alts : List Cand)
    (h : ∃ c ∈ alts, c.sat = true) :
    (runUpdateBest true initGSel alts).hintOk = true ∧
    ∃ b, (runUpdateBest true initGSel alts).best = some b ∧
      b.sat = true ∧ b ∈ alts ∧
      ∀ c ∈ alts, c.sat = true → b.cost ≤ c.cost := by
  have hinv := selInv_run alts [] initGSel selInv_init
  rw [List.nil_append] at hinv
  obtain ⟨hbc, hiff, hsat, _⟩ := hinv
  have hok : (runUpdateBest true initGSel alts).hintOk = true := hiff.mpr h
  obtain ⟨b, hb, hbs, hbmin⟩ := hsat hok
  exact ⟨hok, b, hb, hbs, (hbc b hb).2, hbmin⟩

theorem updateBest_hint_fidelity_witness :
    (∃ c ∈ ([⟨false, 1, 0⟩, ⟨true, 5, 1⟩, ⟨true, 3, 2⟩] : List Cand),
        c.sat = true) ∧
    ((runUpdateBest true initGSel
        [⟨false, 1, 0⟩, ⟨true, 5, 1⟩, ⟨true, 3, 2⟩]).hintOk = true ∧
      ∃ b, (runUpdateBest true initGSel
          [⟨false, 1, 0⟩, ⟨true, 5, 1⟩, ⟨true, 3, 2⟩]).best = some b ∧
        b.sat = true ∧
        b ∈ ([⟨false, 1, 0⟩, ⟨true, 5, 1⟩, ⟨true, 3, 2⟩] : List Cand) ∧
        ∀ c ∈ ([⟨false, 1, 0⟩, ⟨true, 5, 1⟩, ⟨true, 3, 2⟩] : List Cand),
          c.sat = true → b.cost ≤ c.cost) :=
  ⟨⟨⟨true, 5, 1⟩, by decide, rfl⟩,
    updateBest_hint_fidelity _ ⟨⟨true, 5, 1⟩, by decide, rfl⟩⟩

/-- C2: hints are advisory.  When no alternative of the group satisfies
the hints, the group still ends with a non-nil Best, that Best has
minimum cost among all alternatives, and HintOk remains false. -/
theorem updateBest_hints_advisory (alts : List Cand)
    (h1 : ∀ c ∈ alts, c.sat = false) (h2 : alts ≠ []) :
    (runUpdateBest true initGSel alts).hintOk = false ∧
    ∃ b, (runUpdateBest true initGSel alts).best = some b ∧
      b ∈ alts ∧ ∀ c ∈ alts, b.cost ≤ c.cost := by
  have hinv := selInv_run alts [] initGSel selInv_init
  rw [List.nil_append] at hinv
  obtain ⟨hbc, hiff, _, hnosat⟩ := hinv
  have hok : (runUpdateBest true initGSel alts).hintOk = false := by
    cases hx : (runUpdateBest true initGSel alts).hintOk
    · rfl
    · obtain ⟨c, hc, hcs⟩ := hiff.mp hx
      exact absurd hcs (by simp [h1 c hc])
  obtain ⟨b, hb, hbmin⟩ := hnosat hok h2
  exact ⟨hok, b, hb, (hbc b hb).2, hbmin⟩

theorem updateBest_hints_advisory_witness :
    ((∀ c ∈ ([⟨false, 4, 0⟩, ⟨false, 2, 1⟩, ⟨false, 7, 2⟩] : List Cand),
        c.sat = false) ∧
      ([⟨false, 4, 0⟩, ⟨false, 2, 1⟩, ⟨false, 7, 2⟩] : List Cand) ≠ []) ∧
    ((runUpdateBest true initGSel
        [⟨false, 4, 0⟩, ⟨false, 2, 1⟩, ⟨false, 7, 2⟩]).hintOk = false ∧
      ∃ b, (runUpdateBest true initGSel
          [⟨false, 4, 0⟩, ⟨false, 2, 1⟩, ⟨false, 7, 2⟩]).best = some b ∧
        b ∈ ([⟨false, 4, 0⟩, ⟨false, 2, 1⟩, ⟨false, 7, 2⟩] : List Cand) ∧
        ∀ c ∈ ([⟨false, 4, 0⟩, ⟨false, 2, 1⟩, ⟨false, 7, 2⟩] : List Cand),
          b.cost ≤ c.cost) :=
  ⟨⟨by decide, by decide⟩,
    updateBest_hints_advisory _ (by decide) (by decide)⟩

/-! ## Memo state model for the Memoize-join constructors
(memo.go lines 87-233)

Groups are addressed by their 16-bit ids; a group is its ordered list of
alternatives (head = First, tail = the chain of Next links) together with
the Best/Cost/Done/HintOk fields.  The join payload we track is the
operator kind, the ids of the left and right operand groups, and the
Injective flag of LookupJoins.  isInjectiveLookup is not among the
provided sources, so its outcome is abstracted as a boolean argument. -/

inductive MKind where
  | innerJoin
  | leftJoin
  | lookupJoin
  | source
  | indexScan
  | otherRel
deriving DecidableEq, Repr

structure MExpr where
  kind : MKind
  left : Nat
  right : Nat
  injective : Bool
deriving DecidableEq, Repr

structure MGroup where
  exprs : List MExpr
  best : Option MExpr
  cost : ℚ
  done : Bool
  hintOk : Bool
deriving DecidableEq, Repr

structure MemoSt where
  cnt : Nat
  groups : Nat → Option MGroup

/-- Memo.NewExprGroup (memo.go lines 87-96): bump the counter and
install a fresh group whose only alternative is the given expression. -/
def newExprGroup (m : MemoSt) (e : MExpr) : MemoSt × Nat :=
  let id := m.cnt + 1
  (⟨id, fun g =>
      if g = id then
        some { exprs := [e], best := none, cost := 0,
               done := false, hintOk := false }
      else m.groups g⟩, id)

/-- Modelled from the spec: ExprGroup.Prepend is not among the provided
sources.  Per the spec, the new expression becomes the head of the
group's list and the previous head stays reachable through its next
link. -/
def prependExpr (m : MemoSt) (gid : Nat) (e : MExpr) : MemoSt :=
  ⟨m.cnt, fun g =>
    if g = gid then
      (m.groups gid).map (fun grp => { grp with exprs := e :: grp.exprs })
    else m.groups g⟩

/-- Memo.MemoizeInnerJoin (memo.go lines 126-143). -/
def memoizeInnerJoin (m : MemoSt) (grp : Option Nat) (left right : Nat) :
    MemoSt × Nat :=
  let newJoin : MExpr :=
    { kind := .innerJoin, left := left, right := right, injective := false }
  match grp with
  | none => newExprGroup m newJoin
  | some g => (prependExpr m g newJoin, g)

/-- Memo.MemoizeLeftJoin (memo.go lines 107-124). -/
def memoizeLeftJoin (m : MemoSt) (grp : Option Nat) (left right : Nat) :
    MemoSt × Nat :=
  let newJoin : MExpr :=
    { kind := .leftJoin, left := left, right := right, injective := false }
  match grp with
  | none => newExprGroup m newJoin
  | some g => (prependExpr m g newJoin, g)

/-- Sets the Injective flag on the head of a group's list.  This models
the assignment newJoin.Injective = true in MemoizeLookupJoin: at that
point newJoin is the group's head, having just been prepended. -/
def setHeadInjective (m : MemoSt) (gid : Nat) : MemoSt :=
  ⟨m.cnt, fun g =>
    if g = gid then
      (m.groups gid).map (fun grp =>
        { grp with exprs :=
            match grp.exprs with
            | [] => []
            | e :: rest => { e with injective := true } :: rest })
    else m.groups g⟩

/-- Memo.MemoizeLookupJoin (memo.go lines 145-168).  inj is the result
of isInjectiveLookup on the lookup index, join base, lookup expressions
and null mask (that function is not among the provided sources).  Note
that in the source the injectivity check runs only after the early
return taken when grp is nil. -/
def memoizeLookupJoin (m : MemoSt) (grp : Option Nat) (left right : Nat)
    (inj : Bool) : MemoSt × Nat :=
  let newJoin : MExpr :=
    { kind := .lookupJoin, left := left, right := right, injective := false }
  match grp with
  | none => newExprGroup m newJoin
  | some g =>
    let m1 := prependExpr m g newJoin
    (if inj then setHeadInjective m1 g else m1, g)

/-- C3: memoizing a join alternative is frame-preserving.  With a
non-nil target group the new join becomes the head of that group's list
with the previous head as its tail (reachable via next), the target
group's Best/Cost/Done/HintOk fields are untouched, and every other
group of the memo is completely unchanged; with a nil target group a
fresh group is created whose first expression is the new join.  Both
MemoizeInnerJoin and MemoizeLeftJoin are covered. -/
theorem memoize_join_frame (m : MemoSt) (g : Nat) (grp : MGroup)
    (left right : Nat) (hm : m.groups g = some grp) :
    ((memoizeInnerJoin m (some g) left right).2 = g ∧
      (memoizeInnerJoin m (some g) left right).1.groups g =
        some { grp with exprs :=
          { kind := .innerJoin, left := left, right := right,
            injective := false } :: grp.exprs } ∧
      (∀ g', g' ≠ g →
        (memoizeInnerJoin m (some g) left right).1.groups g' =
          m.groups g')) ∧
    ((memoizeLeftJoin m (some g) left right).2 = g ∧
      (memoizeLeftJoin m (some g) left right).1.groups g =
        some { grp with exprs :=
          { kind := .leftJoin, left := left, right := right,
            injective := false } :: grp.exprs } ∧
      (∀ g', g' ≠ g →
        (memoizeLeftJoin m (some g) left right).1.groups g' =
          m.groups g')) ∧
    ((memoizeInnerJoin m none left right).2 = m.cnt + 1 ∧
      (memoizeInnerJoin m none left right).1.groups (m.cnt + 1) =
        some { exprs := [{ kind := .innerJoin, left := left, right := right,
                           injective := false }],
               best := none, cost := 0, done := false, hintOk := false }) ∧
    ((memoizeLeftJoin m none left right).2 = m.cnt + 1 ∧
      (memoizeLeftJoin m none left right).1.groups (m.cnt + 1) =
        some { exprs := [{ kind := .leftJoin, left := left, right := right,
                           injective := false }],
               best := none, cost := 0, done := false, hintOk := false }) := by
  refine ⟨⟨rfl, ?_, ?_⟩, ⟨rfl, ?_, ?_⟩, ⟨rfl, ?_⟩, ⟨rfl, ?_⟩⟩
  · simp [memoizeInnerJoin, prependExpr, hm]
  · intro g' hg'
    simp [memoizeInnerJoin, prependExpr, hg']
  · simp [memoizeLeftJoin, prependExpr, hm]
  · intro g' hg'
    simp [memoizeLeftJoin, prependExpr, hg']
  · simp [memoizeInnerJoin, newExprGroup]
  · simp [memoizeLeftJoin, newExprGroup]

/-- A tiny two-group memo used to instantiate the frame theorems. -/
def memoTwo : MemoSt :=
  ⟨2, fun g =>
    if g = 1 then
      some { exprs := [{ kind := .source, left := 0, right := 0,
                         injective := false }],
             best := none, cost := 0, done := false, hintOk := false }
    else if g = 2 then
      some { exprs := [{ kind := .source, left := 0, right := 0,
                         injective := false }],
             best := none, cost := 3, done := true, hintOk := true }
    else none⟩

theorem memoize_join_frame_witness :
    memoTwo.groups 1 =
      some { exprs := [{ kind := .source, left := 0, right := 0,
                         injective := false }],
             best := none, cost := 0, done := false, hintOk := false } ∧
    ((memoizeInnerJoin memoTwo (some 1) 1 2).2 = 1 ∧
      (memoizeInnerJoin memoTwo (some 1) 1 2).1.groups 1 =
        some { exprs :=
          [{ kind := .innerJoin, left := 1, right := 2, injective := false },
           { kind := .source, left := 0, right := 0, injective := false }],
               best := none, cost := 0, done := false, hintOk := false } ∧
      (∀ g', g' ≠ 1 →
        (memoizeInnerJoin memoTwo (some 1) 1 2).1.groups g' =
          memoTwo.groups g')) ∧
    ((memoizeLeftJoin memoTwo (some 1) 1 2).2 = 1 ∧
      (memoizeLeftJoin memoTwo (some 1) 1 2).1.groups 1 =
        some { exprs :=
          [{ kind := .leftJoin, left := 1, right := 2, injective := false },
           { kind := .source, left := 0, right := 0, injective := false }],
               best := none, cost := 0, done := false, hintOk := false } ∧
      (∀ g', g' ≠ 1 →
        (memoizeLeftJoin memoTwo (some 1) 1 2).1.groups g' =
          memoTwo.groups g')) ∧
    ((memoizeInnerJoin memoTwo none 1 2).2 = memoTwo.cnt + 1 ∧
      (memoizeInnerJoin memoTwo none 1 2).1.groups (memoTwo.cnt + 1) =
        some { exprs := [{ kind := .innerJoin, left := 1, right := 2,
                           injective := false }],
               best := none, cost := 0, done := false, hintOk := false }) ∧
    ((memoizeLeftJoin memoTwo none 1 2).2 = memoTwo.cnt + 1 ∧
      (memoizeLeftJoin memoTwo none 1 2).1.groups (memoTwo.cnt + 1) =
        some { exprs := [{ kind := .leftJoin, left := 1, right := 2,
                           injective := false }],
               best := none, cost := 0, done := false, hintOk := false }) :=
  ⟨rfl, memoize_join_frame memoTwo 1 _ 1 2 rfl⟩

/-- C6 counterexample: in MemoizeLookupJoin the isInjectiveLookup check
sits after the early return taken for a nil target group, so a lookup
join placed in a freshly created group never receives the Injective
flag, even when the lookup is injective (inj = true below).  The claim
requires the flag to be set in that case as well. -/
theorem memoizeLookupJoin_fresh_group_cex :
    ((memoizeLookupJoin ⟨0, fun _ => none⟩ none 1 2 true).1.groups 1).map
        (fun grp => grp.exprs.map MExpr.injective) = some [false] ∧
    ((memoizeLookupJoin ⟨0, fun _ => none⟩ none 1 2 true).1.groups 1).map
        (fun grp => grp.exprs.map MExpr.injective) ≠ some [true] := by
  exact ⟨rfl, by decide⟩

/-- C6 amended: a LookupJoin memoized into an existing (non-nil) target
group carries Injective = isInjectiveLookup(...); when the target group
is nil the join is placed in a fresh group and the injectivity check is
skipped, leaving Injective false regardless. -/
theorem memoizeLookupJoin_injective (m : MemoSt) (g : Nat) (grp : MGroup)
    (left right : Nat) (inj : Bool) (hm : m.groups g = some grp) :
    ((memoizeLookupJoin m (some g) left right inj).2 = g ∧
      (memoizeLookupJoin m (some g) left right inj).1.groups g =
        some { grp with exprs :=
          { kind := .lookupJoin, left := left, right := right,
            injective := inj } :: grp.exprs }) ∧
    ((memoizeLookupJoin m none left right inj).2 = m.cnt + 1 ∧
      (memoizeLookupJoin m none left right inj).1.groups (m.cnt + 1) =
        some { exprs := [{ kind := .lookupJoin, left := left, right := right,
                           injective := false }],
               best := none, cost := 0, done := false, hintOk := false }) := by
  refine ⟨⟨rfl, ?_⟩, ⟨rfl, ?_⟩⟩
  · cases inj
    · simp [memoizeLookupJoin, prependExpr, hm]
    · simp [memoizeLookupJoin, prependExpr, setHeadInjective, hm]
  · simp [memoizeLookupJoin, newExprGroup]

theorem memoizeLookupJoin_injective_witness :
    memoTwo.groups 1 =
      some { exprs := [{ kind := .source, left := 0, right := 0,
                         injective := false }],
             best := none, cost := 0, done := false, hintOk := false } ∧
    (((memoizeLookupJoin memoTwo (some 1) 1 2 true).2 = 1 ∧
      (memoizeLookupJoin memoTwo (some 1) 1 2 true).1.groups 1 =
        some { exprs :=
          [{ kind := .lookupJoin, left := 1, right := 2, injective := true },
           { kind := .source, left := 0, right := 0, injective := false }],
               best := none, cost := 0, done := false, hintOk := false }) ∧
    ((memoizeLookupJoin memoTwo none 1 2 true).2 = memoTwo.cnt + 1 ∧
      (memoizeLookupJoin memoTwo none 1 2 true).1.groups (memoTwo.cnt + 1) =
        some { exprs := [{ kind := .lookupJoin, left := 1, right := 2,
                           injective := false }],
               best := none, cost := 0, done := false, hintOk := false })) :=
  ⟨rfl, memoizeLookupJoin_injective memoTwo 1 _ 1 2 true rfl⟩

/-! ## tableProps and case-insensitive table-name lookup
(memo.go lines 520-545, memo.og.go lines 183-185)

Go strings are modelled as byte lists; strings.ToLower restricted to
ASCII maps bytes 65-90 to 97-122.  tableProps keeps two maps; Go map
assignment is modelled by prepending to an association list whose lookup
returns the most recent binding. -/

def lowerByte (b : Nat) : Nat :=
  if 65 ≤ b ∧ b ≤ 90 then b + 32 else b

def lowerName (s : List Nat) : List Nat :=
  s.map lowerByte

def lookupName : List (List Nat × Nat) → List Nat → Option Nat
  | [], _ => none
  | (k, v) :: rest, n => if k = n then some v else lookupName rest n

structure TProps where
  grpToName : List (Nat × List Nat)
  nameToGrp : List (List Nat × Nat)
deriving DecidableEq, Repr

/-- tableProps.addTable (memo.go lines 532-535). -/
def addTable (p : TProps) (n : List Nat) (id : Nat) : TProps :=
  { grpToName := (id, n) :: p.grpToName,
    nameToGrp := (n, id) :: p.nameToGrp }

/-- tableProps.GetId (memo.go lines 542-545): the queried name is
lowercased before the map lookup. -/
def getId (p : TProps) (n : List Nat) : Option Nat :=
  lookupName p.nameToGrp (lowerName n)

/-- Registration of a source: Memo.NewExprGroup (memo.go lines 87-96)
calls addTable with s.Name(), and every SourceRel Name() method returns
strings.ToLower of the underlying table name (e.g. TableScan.Name,
memo.og.go lines 183-185), so the stored key is the lowercased raw
name. -/
def registerSource (p : TProps) (rawName : List Nat) (id : Nat) : TProps :=
  addTable p (lowerName rawName) id

/-- C5: case-insensitive table-name lookup.  After a source with raw
table name rawName is registered under group id, GetId answers (id,
true) for every query string equal to the name up to ASCII case. -/
theorem getId_case_insensitive (p : TProps) (rawName q : List Nat)
    (id : Nat) (h : lowerName q = lowerName rawName) :
    getId (registerSource p rawName id) q = some id := by
  simp [getId, registerSource, addTable, lookupName, h]

theorem getId_case_insensitive_witness :
    lowerName [102, 79, 79] = lowerName [70, 111, 111] ∧
    getId (registerSource ⟨[], []⟩ [70, 111, 111] 5) [102, 79, 79] =
      some 5 :=
  ⟨by decide, getId_case_insensitive ⟨[], []⟩ [70, 111, 111]
    [102, 79, 79] 5 (by decide)⟩

/-! ## optimizeMemoGroup (memo.go lines 297-378)

Expression groups are modelled as trees: a group is its list of
alternatives, each alternative carrying its operator kind and its
operand groups (sharing in the memo DAG only deduplicates work via the
Done flag and does not change the computed values, so a tree suffices).
The coster (the Coster interface), the satisfiedBy outcome and the
sortedInputs test are parameters/fields because their implementations
are not among the provided sources; dCost abstracts the
statsForRel-based hash-distinct penalty of memo.go lines 355-357.
Recursion is by explicit fuel; the result is none when fuel runs out.
costerCalls counts the Coster.EstimateCost invocations performed. -/

inductive OpKind where
  | tableScan
  | indexScan
  | otherSource
  | joinRel
  | filterRel
  | projectRel
  | otherRel
deriving DecidableEq, Repr

/-- The (SourceRel) type test of memo.go line 317: TableScan, IndexScan,
Values, TableAlias, RecursiveTable, RecursiveCte, SubqueryAlias,
Max1Row, TableFunc and EmptyTable implement SourceRel (memo.og.go);
tableScan and otherSource stand for the non-IndexScan ones. -/
def OpKind.isSource : OpKind → Bool
  | .tableScan => true
  | .indexScan => true
  | .otherSource => true
  | _ => false

mutual
inductive OExpr : Type where
  | mk : OpKind → Bool → List OTree → OExpr
inductive OTree : Type where
  | mk : List OExpr → Bool → ℚ → OTree
end

def OExpr.kind : OExpr → OpKind
  | .mk k _ _ => k

/-- The sortedInputs(n) outcome (memo.go line 352); that function is not
among the provided sources, so the outcome is carried by the node. -/
def OExpr.sortedIn : OExpr → Bool
  | .mk _ s _ => s

def OExpr.children : OExpr → List OTree
  | .mk _ _ cs => cs

/-- The loop of memo.go lines 326-331: the first IndexScan alternative
reachable from the head of the group's list. -/
def firstIndexScan : List OExpr → Option OExpr
  | [] => none
  | e :: rest => if e.kind = .indexScan then some e else firstIndexScan rest

/-- The group state produced by optimizeMemoGroup: Best, Cost, Done and
HintOk, plus the number of cost estimations performed. -/
structure ORes where
  best : Option OExpr
  cost : ℚ
  done : Bool
  hintOk : Bool
  costerCalls : Nat

def optimizeMemoGroup (c : OpKind → ℚ) (hsat : OExpr → Bool) :
    Nat → OTree → Option ORes
  | 0, _ => none
  | fuel + 1, .mk exprs dHash dCost =>
    match exprs with
    | [] => some { best := none, cost := 0, done := true,
                   hintOk := false, costerCalls := 0 }
    | e0 :: _ =>
      if e0.kind.isSource then
        -- memo.go lines 317-334: sources return immediately, preferring
        -- an IndexScan alternative, and never reach the coster
        some { best := some ((firstIndexScan exprs).getD e0), cost := 0,
               done := true, hintOk := true, costerCalls := 0 }
      else
        let step := fun (acc : Option (GSel OExpr × Nat)) (e : OExpr) =>
          match acc with
          | none => none
          | some (s, calls) =>
            match e.children.foldl
                (fun (cacc : Option (ℚ × Nat)) t =>
                  match cacc with
                  | none => none
                  | some (cc, ccalls) =>
                    match optimizeMemoGroup c hsat fuel t with
                    | none => none
                    | some r => some (cc + r.cost, ccalls + r.costerCalls))
                (some (0, 0)) with
            | none => none
            | some (childCost, childCalls) =>
              let relCost := c e.kind
              let relCost2 :=
                if dHash then
                  if e.sortedIn then relCost else relCost + dCost
                else relCost
              some (memoUpdateBest hsat true s e (childCost + relCost2),
                calls + childCalls + 1)
        match exprs.foldl step (some (initGSel, 0)) with
        | none => none
        | some (s, calls) =>
          -- grp.fixConflicts (memo.go line 371) is not among the
          -- provided sources and is modelled as a no-op; no claim
          -- settled here depends on it
          some { best := s.best, cost := s.cost, done := true,
                 hintOk := s.hintOk, costerCalls := calls }

/-- C4: source-group optimization.  For a group whose first expression
is a source relation, optimizeMemoGroup marks the group Done and HintOk,
sets Best to the first IndexScan alternative of the list (or to the
first expression when none exists), and returns without any cost
estimation — the result does not mention the coster c at all and
costerCalls is zero. -/
theorem optimize_source_group (c : OpKind → ℚ) (hsat : OExpr → Bool)
    (fuel : Nat) (exprs : List OExpr) (dHash : Bool) (dCost : ℚ)
    (e0 : OExpr) (rest : List OExpr) (he : exprs = e0 :: rest)
    (hsrc : e0.kind.isSource = true) :
    optimizeMemoGroup c hsat (fuel + 1) (.mk exprs dHash dCost) =
      some { best := some ((firstIndexScan exprs).getD e0), cost := 0,
             done := true, hintOk := true, costerCalls := 0 } := by
  subst he
  simp [optimizeMemoGroup, hsrc]

theorem optimize_source_group_witness :
    ([ OExpr.mk .tableScan false [], OExpr.mk .indexScan false [] ]
        = OExpr.mk .tableScan false [] :: [OExpr.mk .indexScan false []] ∧
      (OExpr.mk .tableScan false []).kind.isSource = true) ∧
    optimizeMemoGroup (fun _ => 1) (fun _ => false) 1
        (.mk [ OExpr.mk .tableScan false [], OExpr.mk .indexScan false [] ]
          false 0) =
      some { best := some ((firstIndexScan
                [ OExpr.mk .tableScan false [],
                  OExpr.mk .indexScan false [] ]).getD
              (OExpr.mk .tableScan false [])),
             cost := 0, done := true, hintOk := true, costerCalls := 0 } :=
  ⟨⟨rfl, rfl⟩,
    optimize_source_group (fun _ => 1) (fun _ => false) 0
      [ OExpr.mk .tableScan false [], OExpr.mk .indexScan false [] ]
      false 0 (OExpr.mk .tableScan false [])
      [OExpr.mk .indexScan false []] rfl rfl⟩

/-! ## buildBestJoinPlan (memo.go lines 401-422)

A post-optimization group is its Done flag and its Best pointer; a Best
expression is an operator tag together with the child groups returned by
Children().  Go iterates the children in order and returns the first
error; dereferencing a nil Best (n.Children() on a nil interface) is a
runtime panic, modelled as a distinguished outcome.  ExecBuilder.buildRel
is not among the provided sources; per the spec, reification builds a
concrete node from the best expression and the built children, modelled
as a plain node constructor. -/

mutual
inductive PGroup : Type where
  | mk : Bool → PBest → PGroup
inductive PBest : Type where
  | none : PBest
  | mk : Nat → PForest → PBest
inductive PForest : Type where
  | nil : PForest
  | cons : PGroup → PForest → PForest
end

inductive PNode : Type where
  | mk : Nat → List PNode → PNode

inductive BRes : Type where
  | ok : PNode → BRes
  | errNotDone : BRes
  | panicked : BRes

inductive CRes : Type where
  | ok : List PNode → CRes
  | errNotDone : CRes
  | panicked : CRes

mutual
def buildBestJoinPlan : PGroup → BRes
  | .mk false _ => .errNotDone
  | .mk true .none => .panicked
  | .mk true (.mk op cs) =>
    match buildChildren cs with
    | .ok ns => .ok (.mk op ns)
    | .errNotDone => .errNotDone
    | .panicked => .panicked
def buildChildren : PForest → CRes
  | .nil => .ok []
  | .cons g rest =>
    match buildBestJoinPlan g with
    | .ok n =>
      match buildChildren rest with
      | .ok ns => .ok (n :: ns)
      | .errNotDone => .errNotDone
      | .panicked => .panicked
    | .errNotDone => .errNotDone
    | .panicked => .panicked
end

mutual
/-- Some group reachable from this one through Best-expression children
does not have Done set. -/
def reachNotDoneG : PGroup → Bool
  | .mk done best => !done || reachNotDoneB best
def reachNotDoneB : PBest → Bool
  | .none => false
  | .mk _ cs => reachNotDoneF cs
def reachNotDoneF : PForest → Bool
  | .nil => false
  | .cons g rest => reachNotDoneG g || reachNotDoneF rest
end

mutual
/-- Well-formedness of optimizer output: a group marked Done has a
non-nil Best (optimizeMemoGroup always assigns Best — through the source
branch or through updateBest on the group's first alternative — before
setting Done, and every group is created with at least one
expression). -/
def wfG : PGroup → Bool
  | .mk done .none => !done
  | .mk _ (.mk _ cs) => wfF cs
def wfF : PForest → Bool
  | .nil => true
  | .cons g rest => wfG g && wfF rest
end

mutual
/-- The depth-first tree of Best expressions, the plan the spec says
reification produces. -/
def bestTreeG : PGroup → Option PNode
  | .mk _ .none => none
  | .mk _ (.mk op cs) => (bestTreeF cs).map (PNode.mk op)
def bestTreeF : PForest → Option (List PNode)
  | .nil => some []
  | .cons g rest =>
    match bestTreeG g, bestTreeF rest with
    | some n, some ns => some (n :: ns)
    | _, _ => none
end

mutual
lemma buildG_spec : ∀ (g : PGroup), wfG g = true →
    (reachNotDoneG g = true → buildBestJoinPlan g = .errNotDone) ∧
    (reachNotDoneG g = false →
      ∃ t, buildBestJoinPlan g = .ok t ∧ bestTreeG g = some t)
  | .mk false best, _ => by
    constructor
    · intro _
      rfl
    · intro hr
      simp [reachNotDoneG] at hr
  | .mk true .none, hwf => by
    simp [wfG] at hwf
  | .mk true (.mk op cs), hwf => by
    have hwf' : wfF cs = true := hwf
    obtain ⟨ih1, ih2⟩ := buildF_spec cs hwf'
    constructor
    · intro hr
      have hrf : reachNotDoneF cs = true := by
        simpa [reachNotDoneG, reachNotDoneB] using hr
      simp [buildBestJoinPlan, ih1 hrf]
    · intro hr
      have hrf : reachNotDoneF cs = false := by
        simpa [reachNotDoneG, reachNotDoneB] using hr
      obtain ⟨ts, hb, ht⟩ := ih2 hrf
      exact ⟨.mk op ts, by simp [buildBestJoinPlan, hb],
        by simp [bestTreeG, ht]⟩
lemma buildF_spec : ∀ (f : PForest), wfF f = true →
    (reachNotDoneF f = true → buildChildren f = .errNotDone) ∧
    (reachNotDoneF f = false →
      ∃ ts, buildChildren f = .ok ts ∧ bestTreeF f = some ts)
  | .nil, _ => by
    constructor
    · intro hr
      simp [reachNotDoneF] at hr
    · intro _
      exact ⟨[], rfl, rfl⟩
  | .cons g rest, hwf => by
    have hwfg : wfG g = true := by
      simp [wfF, Bool.and_eq_true] at hwf
      exact hwf.1
    have hwfr : wfF rest = true := by
      simp [wfF, Bool.and_eq_true] at hwf
      exact hwf.2
    obtain ⟨g1, g2⟩ := buildG_spec g hwfg
    obtain ⟨r1, r2⟩ := buildF_spec rest hwfr
    constructor
    · intro hr
      cases hrg : reachNotDoneG g
      · have hrr : reachNotDoneF rest = true := by
          simpa [reachNotDoneF, hrg] using hr
        obtain ⟨t, hb, _⟩ := g2 hrg
        simp [buildChildren, hb, r1 hrr]
      · simp [buildChildren, g1 hrg]
    · intro hr
      have hrg : reachNotDoneG g = false := by
        simp [reachNotDoneF, Bool.or_eq_true] at hr
        simpa using hr.1
      have hrr : reachNotDoneF rest = false := by
        simp [reachNotDoneF, Bool.or_eq_true] at hr
        simpa using hr.2
      obtain ⟨t, hb, ht⟩ := g2 hrg
      obtain ⟨ts, hbs, hts⟩ := r2 hrr
      exact ⟨t :: ts, by simp [buildChildren, hb, hbs],
        by simp [bestTreeF, ht, hts]⟩
end

/-- C10: reification requires finished optimization.  Over any
well-formed optimizer output (Done groups carry a non-nil Best),
BestRootPlan via buildBestJoinPlan returns the expected-groups-fixed
error — never a plan and never a panic — whenever some group reachable
from the root through Best-expression children is not Done; when all
reachable groups are Done it returns the tree built by depth-first
traversal of each group's Best expression. -/
theorem buildBestJoinPlan_requires_done (g : PGroup) (hwf : wfG g = true) :
    (reachNotDoneG g = true → buildBestJoinPlan g = .errNotDone) ∧
    (reachNotDoneG g = false →
      ∃ t, buildBestJoinPlan g = .ok t ∧ bestTreeG g = some t) :=
  buildG_spec g hwf

theorem buildBestJoinPlan_requires_done_witness :
    wfG (.mk true (.mk 7 (.cons (.mk false .none) .nil))) = true ∧
    ((reachNotDoneG (.mk true (.mk 7 (.cons (.mk false .none) .nil))) = true →
        buildBestJoinPlan (.mk true (.mk 7 (.cons (.mk false .none) .nil))) =
          .errNotDone) ∧
      (reachNotDoneG (.mk true (.mk 7 (.cons (.mk false .none) .nil))) = false →
        ∃ t, buildBestJoinPlan
            (.mk true (.mk 7 (.cons (.mk false .none) .nil))) = .ok t ∧
          bestTreeG (.mk true (.mk 7 (.cons (.mk false .none) .nil))) =
            some t)) :=
  ⟨rfl, buildBestJoinPlan_requires_done
    (.mk true (.mk 7 (.cons (.mk false .none) .nil))) rfl⟩

/-! ## Spec-modelled planner decisions (transform rules not in src/)

The decorrelation, range-heap and lookup-index-selection transform rules
are exercised by the JoinPlanningTests of the repository but their
implementations are not among the provided sources; the decision
functions below are modelled from the specification text and the claims
are settled against them, with the expected result rows computed
concretely from the test tables. -/

inductive PlanJoinType where
  | inner
  | leftOuter
  | semi
  | anti
  | lookup
  | antiLookup
  | leftOuterLookup
  | hash
  | leftOuterHashExcludeNulls
  | merge
  | rangeHeap
deriving DecidableEq, Repr

inductive HintTy where
  | antiJoinHint
  | otherHint
deriving DecidableEq, Repr

/-- An operator hint naming its two tables. -/
structure OpHint where
  ty : HintTy
  left : Nat
  right : Nat
deriving DecidableEq, Repr

/-- Modelled from the spec: decorrelation of expr NOT IN (subq).
Because MySQL NOT IN returns NULL if any subquery row is NULL, the
default alternative excludes null subquery keys via
LeftOuterHashExcludeNulls; an explicit ANTI_JOIN hint naming the two
sides selects the plain Anti form. -/
def notInJoinOp (hints : List OpHint) (outer inner : Nat) : PlanJoinType :=
  if hints.any (fun h =>
      decide (h.ty = .antiJoinHint ∧ h.left = outer ∧ h.right = inner)) then
    .anti
  else
    .leftOuterHashExcludeNulls

/-- MySQL three-valued IN over a possibly-NULL subquery column. -/
def mysqlIn (v : ℤ) (subq : List (Option ℤ)) : Option Bool :=
  if subq.any (fun x => decide (x = some v)) then some true
  else if subq.any (fun x => decide (x = none)) then none
  else some false

/-- Rows of table xy in the JoinPlanningTests setup. -/
def xyRows : List (ℤ × ℤ) := [(1, 0), (2, 1), (0, 2), (3, 3)]

/-- Column u of table uv in the JoinPlanningTests setup. -/
def uvU : List (Option ℤ) := [some 0, some 1, some 2, some 3]

/-- Rows satisfying y+1 NOT IN (select u from uv): NOT IN is true
exactly when IN is false (not NULL). -/
def notInRows : List (ℤ × ℤ) :=
  xyRows.filter (fun r => decide (mysqlIn (r.2 + 1) uvU = some false))

/-- C7: NOT IN decorrelation default.  With no operator hint the chosen
top operator for expr NOT IN (subq) is LeftOuterHashExcludeNulls, and
with an explicit ANTI_JOIN hint naming the two sides it is the plain
Anti join; on the test instance the surviving rows are exactly
[(3, 3)]. -/
theorem notIn_decorrelation_default :
    (∀ outer inner : Nat,
      notInJoinOp [] outer inner = .leftOuterHashExcludeNulls) ∧
    (∀ outer inner : Nat,
      notInJoinOp [⟨.antiJoinHint, outer, inner⟩] outer inner = .anti) ∧
    notInRows = [(3, 3)] := by
  refine ⟨?_, ?_, by decide⟩
  · intro outer inner
    simp [notInJoinOp]
  · intro outer inner
    simp [notInJoinOp]

/-- The RangeHeap descriptor fields we track (memo.go lines 760-773):
the value/min/max column references and the two bound-closedness
flags. -/
structure RangeHeapInfo where
  valueCol : Nat
  minColRef : Nat
  maxColRef : Nat
  rangeClosedOnLowerBound : Bool
  rangeClosedOnUpperBound : Bool
deriving DecidableEq, Repr

/-- Modelled from the spec: the range-heap rule fires on
val BETWEEN min AND max and records both bounds as closed, BETWEEN
being inclusive on both ends. -/
def rangeHeapForBetween (valueCol minCol maxCol : Nat) : RangeHeapInfo :=
  { valueCol := valueCol, minColRef := minCol, maxColRef := maxCol,
    rangeClosedOnLowerBound := true, rangeClosedOnUpperBound := true }

/-- Modelled from the spec: the chosen operator for the
vals-join-ranges BETWEEN query is a RangeHeap join. -/
def betweenJoinOp : PlanJoinType := .rangeHeap

/-- Rows of table vals in the primary-key range join test. -/
def valsRows : List ℤ := [0, 1, 2, 3, 4, 5, 6]

/-- Rows of table ranges in the primary-key range join test. -/
def rangesRows : List (ℤ × ℤ) := [(0, 2), (1, 3), (2, 4), (3, 5), (4, 6)]

/-- The rows of select * from vals join ranges on val between min and
max, enumerated val-major as the executor streams them. -/
def betweenJoinRows : List (ℤ × ℤ × ℤ) :=
  valsRows.flatMap (fun v =>
    (rangesRows.filter (fun r => decide (r.1 ≤ v ∧ v ≤ r.2))).map
      (fun r => (v, r.1, r.2)))

/-- C8: range-heap on BETWEEN.  The vals/ranges BETWEEN query is
planned as a RangeHeap join with both bounds recorded as closed, and
returns exactly the fifteen rows with min ≤ val ≤ max listed in the
test. -/
theorem rangeHeap_on_between :
    betweenJoinOp = .rangeHeap ∧
    (rangeHeapForBetween 1 2 3).rangeClosedOnLowerBound = true ∧
    (rangeHeapForBetween 1 2 3).rangeClosedOnUpperBound = true ∧
    betweenJoinRows =
      [(0, 0, 2), (1, 0, 2), (1, 1, 3), (2, 0, 2), (2, 1, 3), (2, 2, 4),
       (3, 1, 3), (3, 2, 4), (3, 3, 5), (4, 2, 4), (4, 3, 5), (4, 4, 6),
       (5, 3, 5), (5, 4, 6), (6, 4, 6)] ∧
    betweenJoinRows.length = 15 := by
  refine ⟨rfl, rfl, rfl, by decide, by decide⟩

/-- Length of the longest prefix of an index's column list every
column of which is an equality-join key (spec section 4.4: the longest
contiguous bound prefix determines index applicability). -/
def keyedPrefixLen (keys : List Nat) : List Nat → Nat
  | [] => 0
  | c :: rest => if c ∈ keys then keyedPrefixLen keys rest + 1 else 0

/-- Modelled from the spec: lookup index selection.  An index is a
candidate when the keys cover a non-empty prefix of its columns; the
candidate matching more key columns wins, the earlier one on ties
(lexical stability). -/
def chooseLookupIdx (keys : List Nat) : List (List Nat) → Option (List Nat)
  | [] => none
  | i :: rest =>
    match chooseLookupIdx keys rest with
    | none => if 1 ≤ keyedPrefixLen keys i then some i else none
    | some j =>
      if keyedPrefixLen keys j ≤ keyedPrefixLen keys i then some i else some j

/-- Modelled from the spec: plan.JoinType.AsLookup (not among the
provided sources), used by MemoizeLookupJoin — a left outer join turns
into LeftOuterLookup, an inner join into Lookup, an anti join into
AntiLookup. -/
def asLookup : PlanJoinType → PlanJoinType
  | .leftOuter => .leftOuterLookup
  | .anti => .antiLookup
  | _ => .lookup

/-- Index a_idx(a) of table rhs, with column ids a=1. -/
def aIdxCols : List Nat := [1]

/-- Index abcd_idx(a,b,c,d) of table rhs, with column ids a=1 b=2 c=3
d=4. -/
def abcdIdxCols : List Nat := [1, 2, 3, 4]

/-- C9: longer index prefix wins for lookups.  With equality keys
{a,b,c}, abcd_idx matches three key columns against one for a_idx, so
index selection binds the lookup to abcd_idx, and the left join becomes
a LeftOuterLookup. -/
theorem lookup_longer_index_preferred :
    keyedPrefixLen [1, 2, 3] aIdxCols = 1 ∧
    keyedPrefixLen [1, 2, 3] abcdIdxCols = 3 ∧
    chooseLookupIdx [1, 2, 3] [aIdxCols, abcdIdxCols] = some abcdIdxCols ∧
    asLookup .leftOuter = .leftOuterLookup := by
  refine ⟨by decide, by decide, by decide, rfl⟩
